import Mathlib

/-!
Verification development for the quic3 file-transfer framing protocol.

We give a shallow embedding of the header codec (`encode_header`,
`try_decode_header`), the name sanitizer (`sanitize_file_name`), and the
server's receive state machine (`handle_stream` / `receive_file`) from
`src/lib.rs` and `src/bin/server.rs`. Byte buffers are `List Nat` (each
element a byte value), machine integers are `Nat` with explicit bounds,
and the async receive loop is modelled as a function over the ordered
list of chunks the transport delivers before a clean end-of-stream.
-/

namespace Quic3

/-! ## UTF-8 lossy decoding

`String::from_utf8_lossy` replaces each maximal invalid subpart of the
input with U+FFFD (bytes EF BF BD) following the WHATWG policy used by
Rust's standard library. We model it at the byte level: the output is
the UTF-8 byte sequence of the lossily decoded string. -/

/-- UTF-8 encoding of the replacement character U+FFFD. -/
def utf8_repl : List Nat := [0xEF, 0xBF, 0xBD]

/-- A continuation byte lies in `0x80 ..= 0xBF`. -/
def is_cont (b : Nat) : Bool := decide (0x80 ≤ b ∧ b ≤ 0xBF)

/-- Valid range of the second byte of a multi-byte sequence, which
depends on the lead byte (tighter for E0, ED, F0, F4). -/
def valid_second (b b2 : Nat) : Bool :=
  if b = 0xE0 then decide (0xA0 ≤ b2 ∧ b2 ≤ 0xBF)
  else if b = 0xED then decide (0x80 ≤ b2 ∧ b2 ≤ 0x9F)
  else if b = 0xF0 then decide (0x90 ≤ b2 ∧ b2 ≤ 0xBF)
  else if b = 0xF4 then decide (0x80 ≤ b2 ∧ b2 ≤ 0x8F)
  else decide (0x80 ≤ b2 ∧ b2 ≤ 0xBF)

/-- Byte-level model of `String::from_utf8_lossy` followed by re-encoding:
valid sequences are copied verbatim; each maximal invalid subpart (of
1 to 3 bytes) becomes one replacement character; a truncated final
sequence becomes one replacement character. -/
def utf8_lossy : List Nat → List Nat
  | [] => []
  | b :: rest =>
    if b ≤ 0x7F then b :: utf8_lossy rest
    else if 0xC2 ≤ b ∧ b ≤ 0xDF then
      match rest with
      | [] => utf8_repl
      | b2 :: rest2 =>
        if is_cont b2 then b :: b2 :: utf8_lossy rest2
        else utf8_repl ++ utf8_lossy (b2 :: rest2)
    else if 0xE0 ≤ b ∧ b ≤ 0xEF then
      match rest with
      | [] => utf8_repl
      | b2 :: rest2 =>
        if valid_second b b2 then
          match rest2 with
          | [] => utf8_repl
          | b3 :: rest3 =>
            if is_cont b3 then b :: b2 :: b3 :: utf8_lossy rest3
            else utf8_repl ++ utf8_lossy (b3 :: rest3)
        else utf8_repl ++ utf8_lossy (b2 :: rest2)
    else if 0xF0 ≤ b ∧ b ≤ 0xF4 then
      match rest with
      | [] => utf8_repl
      | b2 :: rest2 =>
        if valid_second b b2 then
          match rest2 with
          | [] => utf8_repl
          | b3 :: rest3 =>
            if is_cont b3 then
              match rest3 with
              | [] => utf8_repl
              | b4 :: rest4 =>
                if is_cont b4 then b :: b2 :: b3 :: b4 :: utf8_lossy rest4
                else utf8_repl ++ utf8_lossy (b4 :: rest4)
            else utf8_repl ++ utf8_lossy (b3 :: rest3)
        else utf8_repl ++ utf8_lossy (b2 :: rest2)
    else utf8_repl ++ utf8_lossy rest


/-- A byte list is valid UTF-8 (Rust `str::from_utf8` succeeds). -/
def validUTF8 : List Nat → Bool
  | [] => true
  | b :: rest =>
    if b ≤ 0x7F then validUTF8 rest
    else if 0xC2 ≤ b ∧ b ≤ 0xDF then
      match rest with
      | [] => false
      | b2 :: rest2 =>
        if is_cont b2 then validUTF8 rest2 else false
    else if 0xE0 ≤ b ∧ b ≤ 0xEF then
      match rest with
      | [] => false
      | b2 :: rest2 =>
        if valid_second b b2 then
          match rest2 with
          | [] => false
          | b3 :: rest3 =>
            if is_cont b3 then validUTF8 rest3 else false
        else false
    else if 0xF0 ≤ b ∧ b ≤ 0xF4 then
      match rest with
      | [] => false
      | b2 :: rest2 =>
        if valid_second b b2 then
          match rest2 with
          | [] => false
          | b3 :: rest3 =>
            if is_cont b3 then
              match rest3 with
              | [] => false
              | b4 :: rest4 =>
                if is_cont b4 then validUTF8 rest4 else false
            else false
        else false
    else false

set_option maxHeartbeats 2000000 in
set_option maxRecDepth 8000 in
/-- On valid UTF-8 input, lossy decoding is the identity on bytes. -/
theorem utf8_lossy_of_valid : ∀ l : List Nat, validUTF8 l = true → utf8_lossy l = l := by
  intro l
  induction l using utf8_lossy.induct <;> intro hv <;>
    rw [validUTF8.eq_def] at hv <;> rw [utf8_lossy.eq_def] <;>
    simp_all <;> try (split_ifs at hv ⊢ <;> try simp_all) <;> try omega
  all_goals exact absurd hv.1 (by omega)

/-! ## Header codec

Shallow embedding of `FileHeader`, `encode_header` and `try_decode_header`
from `src/lib.rs`. Buffers are lists of byte values; the `u16` and `u64`
fields are `Nat`s serialized in little-endian order exactly as
`to_le_bytes` / `from_le_bytes` do. -/

/-- Metadata describing a single file transfer. The `file_name` field
holds the UTF-8 bytes of the (lossily decoded) name string. -/
structure FileHeader where
  file_name : List Nat
  file_size : Nat
deriving DecidableEq, Repr

/-- Name length (u16) + file size (u64). -/
def HEADER_PREFIX_LEN : Nat := 2 + 8

/-- Little-endian bytes of a `u16` value (`to_le_bytes`). -/
def u16_le (n : Nat) : List Nat := [n % 2 ^ 8, n / 2 ^ 8 % 2 ^ 8]

/-- Little-endian bytes of a `u64` value (`to_le_bytes`). -/
def u64_le (n : Nat) : List Nat :=
  [n % 2 ^ 8, n / 2 ^ 8 % 2 ^ 8, n / 2 ^ 16 % 2 ^ 8, n / 2 ^ 24 % 2 ^ 8,
   n / 2 ^ 32 % 2 ^ 8, n / 2 ^ 40 % 2 ^ 8, n / 2 ^ 48 % 2 ^ 8, n / 2 ^ 56 % 2 ^ 8]

/-- Error message used by `encode_header` for an oversized name. -/
def name_too_long_msg : String := "file name too long"

/-- Encode a file header into a length-prefixed buffer
(`encode_header` in `src/lib.rs`). The name is given as its UTF-8
bytes; the check against `u16::MAX` and the wire order
`[name_len u16 LE][file_size u64 LE][name bytes]` follow the source. -/
def encode_header (file_name : List Nat) (file_size : Nat) : Except String (List Nat) :=
  if file_name.length > 65535 then Except.error name_too_long_msg
  else Except.ok (u16_le file_name.length ++ u64_le file_size ++ file_name)

/-- Attempt to decode a file header from the provided buffer
(`try_decode_header` in `src/lib.rs`): `none` if fewer than 10 bytes,
`none` if fewer than `10 + name_len` bytes, otherwise the header (with
lossily decoded name) and the number of bytes consumed. -/
def try_decode_header (buf : List Nat) : Option (FileHeader × Nat) :=
  if buf.length < HEADER_PREFIX_LEN then none
  else
    let name_len := buf.getD 0 0 + 2 ^ 8 * buf.getD 1 0
    let file_size := buf.getD 2 0 + 2 ^ 8 * buf.getD 3 0 + 2 ^ 16 * buf.getD 4 0 +
      2 ^ 24 * buf.getD 5 0 + 2 ^ 32 * buf.getD 6 0 + 2 ^ 40 * buf.getD 7 0 +
      2 ^ 48 * buf.getD 8 0 + 2 ^ 56 * buf.getD 9 0
    if buf.length < HEADER_PREFIX_LEN + name_len then none
    else
      let name_bytes := (buf.drop HEADER_PREFIX_LEN).take name_len
      some (⟨utf8_lossy name_bytes, file_size⟩, HEADER_PREFIX_LEN + name_len)


theorem encode_ok (name : List Nat) (size : Nat) (hn : name.length ≤ 65535) :
    encode_header name size = Except.ok (u16_le name.length ++ u64_le size ++ name) := by
  unfold encode_header
  rw [if_neg (by omega)]

theorem encode_length (name : List Nat) (size : Nat) :
    (u16_le name.length ++ u64_le size ++ name).length = 10 + name.length := by
  simp [u16_le, u64_le]
  omega

set_option maxHeartbeats 1000000 in
theorem decode_encode_append (name : List Nat) (size : Nat) (extra : List Nat)
    (hn : name.length ≤ 65535) (hs : size < 2 ^ 64) :
    try_decode_header (u16_le name.length ++ u64_le size ++ name ++ extra) =
      some (⟨utf8_lossy name, size⟩, 10 + name.length) := by
  simp only [try_decode_header, u16_le, u64_le, HEADER_PREFIX_LEN, List.cons_append,
    List.nil_append, List.getD_cons_zero, List.getD_cons_succ, List.length_cons,
    List.length_append, List.drop_succ_cons, List.drop_zero]
  rw [if_neg (by omega)]
  rw [if_neg (by omega)]
  rw [show name.length % 2 ^ 8 + 2 ^ 8 * (name.length / 2 ^ 8 % 2 ^ 8) = name.length from by omega]
  rw [List.take_left]
  simp only [Option.some.injEq, Prod.mk.injEq, FileHeader.mk.injEq]
  have e1 : size / 2 ^ 16 = size / 2 ^ 8 / 2 ^ 8 := by rw [Nat.div_div_eq_div_mul]; norm_num
  have e2 : size / 2 ^ 24 = size / 2 ^ 16 / 2 ^ 8 := by rw [Nat.div_div_eq_div_mul]; norm_num
  have e3 : size / 2 ^ 32 = size / 2 ^ 24 / 2 ^ 8 := by rw [Nat.div_div_eq_div_mul]; norm_num
  have e4 : size / 2 ^ 40 = size / 2 ^ 32 / 2 ^ 8 := by rw [Nat.div_div_eq_div_mul]; norm_num
  have e5 : size / 2 ^ 48 = size / 2 ^ 40 / 2 ^ 8 := by rw [Nat.div_div_eq_div_mul]; norm_num
  have e6 : size / 2 ^ 56 = size / 2 ^ 48 / 2 ^ 8 := by rw [Nat.div_div_eq_div_mul]; norm_num
  have h56 : size / 2 ^ 56 % 2 ^ 8 = size / 2 ^ 56 :=
    Nat.mod_eq_of_lt (Nat.div_lt_of_lt_mul (lt_of_lt_of_eq hs (by norm_num)))
  have hsize : size % 2 ^ 8 + 2 ^ 8 * (size / 2 ^ 8 % 2 ^ 8) + 2 ^ 16 * (size / 2 ^ 16 % 2 ^ 8) +
      2 ^ 24 * (size / 2 ^ 24 % 2 ^ 8) + 2 ^ 32 * (size / 2 ^ 32 % 2 ^ 8) +
      2 ^ 40 * (size / 2 ^ 40 % 2 ^ 8) + 2 ^ 48 * (size / 2 ^ 48 % 2 ^ 8) +
      2 ^ 56 * (size / 2 ^ 56 % 2 ^ 8) = size := by
    calc size % 2 ^ 8 + 2 ^ 8 * (size / 2 ^ 8 % 2 ^ 8) + 2 ^ 16 * (size / 2 ^ 16 % 2 ^ 8) +
        2 ^ 24 * (size / 2 ^ 24 % 2 ^ 8) + 2 ^ 32 * (size / 2 ^ 32 % 2 ^ 8) +
        2 ^ 40 * (size / 2 ^ 40 % 2 ^ 8) + 2 ^ 48 * (size / 2 ^ 48 % 2 ^ 8) +
        2 ^ 56 * (size / 2 ^ 56 % 2 ^ 8)
        = size % 2 ^ 8 + 2 ^ 8 * (size / 2 ^ 8 % 2 ^ 8 + 2 ^ 8 * (size / 2 ^ 16 % 2 ^ 8 +
          2 ^ 8 * (size / 2 ^ 24 % 2 ^ 8 + 2 ^ 8 * (size / 2 ^ 32 % 2 ^ 8 +
          2 ^ 8 * (size / 2 ^ 40 % 2 ^ 8 + 2 ^ 8 * (size / 2 ^ 48 % 2 ^ 8 +
          2 ^ 8 * (size / 2 ^ 56 % 2 ^ 8))))))) := by ring
      _ = size := by
        rw [h56, e6, Nat.mod_add_div, e5, Nat.mod_add_div, e4, Nat.mod_add_div, e3,
          Nat.mod_add_div, e2, Nat.mod_add_div, e1, Nat.mod_add_div, Nat.mod_add_div]
  exact ⟨⟨trivial, hsize⟩, trivial⟩


/-- Auxiliary: `getD` of a `take` agrees with the original list below the cut. -/
theorem getD_take_eq (l : List Nat) (k i : Nat) (h : i < k) :
    (l.take k).getD i 0 = l.getD i 0 := by
  induction l generalizing k i with
  | nil => simp
  | cons a t ih =>
    cases k with
    | zero => omega
    | succ k =>
      cases i with
      | zero => simp
      | succ i => simpa using ih k i (by omega)

/-- First two bytes of an encoded header hold the name length in LE order. -/
theorem enc_getD01 (name : List Nat) (size : Nat) :
    (u16_le name.length ++ u64_le size ++ name).getD 0 0 = name.length % 2 ^ 8 ∧
    (u16_le name.length ++ u64_le size ++ name).getD 1 0 = name.length / 2 ^ 8 % 2 ^ 8 := by
  simp [u16_le, u64_le, List.cons_append, List.nil_append]

/-- Every strict prefix of an encoded header fails to decode. -/
theorem decode_prefix_none (name : List Nat) (size : Nat) (k : Nat)
    (hn : name.length ≤ 65535) (hk : k < 10 + name.length) :
    try_decode_header ((u16_le name.length ++ u64_le size ++ name).take k) = none := by
  have hlen10 : (u16_le name.length ++ u64_le size ++ name).length = 10 + name.length :=
    encode_length name size
  by_cases hsmall : k < 10
  · unfold try_decode_header
    rw [if_pos]
    rw [List.length_take]
    simp only [HEADER_PREFIX_LEN]
    omega
  · have htk : ((u16_le name.length ++ u64_le size ++ name).take k).length = k := by
      rw [List.length_take]
      omega
    have h0 : ((u16_le name.length ++ u64_le size ++ name).take k).getD 0 0 =
        name.length % 2 ^ 8 := by
      rw [getD_take_eq _ _ _ (by omega)]
      exact (enc_getD01 name size).1
    have h1 : ((u16_le name.length ++ u64_le size ++ name).take k).getD 1 0 =
        name.length / 2 ^ 8 % 2 ^ 8 := by
      rw [getD_take_eq _ _ _ (by omega)]
      exact (enc_getD01 name size).2
    unfold try_decode_header
    rw [if_neg (by rw [htk]; simp only [HEADER_PREFIX_LEN]; omega)]
    simp only [h0, h1, htk, HEADER_PREFIX_LEN]
    rw [if_pos (by omega)]

/-- Characterization of decode failure: `try_decode_header` returns `none`
exactly when the buffer is shorter than 10 bytes or shorter than
`10 + name_len`, where `name_len` is the little-endian `u16` read from
the first two bytes. -/
theorem decode_none_characterization (buf : List Nat) :
    try_decode_header buf = none ↔
      buf.length < 10 ∨ buf.length < 10 + (buf.getD 0 0 + 2 ^ 8 * buf.getD 1 0) := by
  unfold try_decode_header
  simp only [HEADER_PREFIX_LEN]
  split_ifs with h1 h2
  · simp only [true_iff]
    omega
  · simp only [true_iff]
    omega
  · simp only [reduceCtorEq, false_iff]
    omega

/-- Decode is stable under appending bytes: a successful decode result is
unchanged by any suffix the buffer later grows. -/
theorem decode_append_of_some (buf extra : List Nat) (h : FileHeader) (c : Nat)
    (hd : try_decode_header buf = some (h, c)) :
    try_decode_header (buf ++ extra) = some (h, c) := by
  by_cases h1 : buf.length < 2 + 8
  · unfold try_decode_header at hd
    rw [if_pos (by simpa [HEADER_PREFIX_LEN] using h1)] at hd
    exact absurd hd (by simp)
  · by_cases h2 : buf.length < 2 + 8 + (buf.getD 0 0 + 2 ^ 8 * buf.getD 1 0)
    · unfold try_decode_header at hd
      rw [if_neg (by simpa [HEADER_PREFIX_LEN] using h1)] at hd
      rw [if_pos (by simpa [HEADER_PREFIX_LEN] using h2)] at hd
      exact absurd hd (by simp)
    · have g0 : (buf ++ extra).getD 0 0 = buf.getD 0 0 :=
        List.getD_append _ _ _ _ (by omega)
      have g1 : (buf ++ extra).getD 1 0 = buf.getD 1 0 :=
        List.getD_append _ _ _ _ (by omega)
      have g2 : ∀ i : Nat, i < 10 → (buf ++ extra).getD i 0 = buf.getD i 0 := by
        intro i hi
        exact List.getD_append _ _ _ _ (by omega)
      have hdrop : (buf ++ extra).drop (2 + 8) = buf.drop (2 + 8) ++ extra :=
        List.drop_append_of_le_length (by omega)
      have htake : (buf.drop (2 + 8) ++ extra).take (buf.getD 0 0 + 2 ^ 8 * buf.getD 1 0) =
          (buf.drop (2 + 8)).take (buf.getD 0 0 + 2 ^ 8 * buf.getD 1 0) :=
        List.take_append_of_le_length (by rw [List.length_drop]; omega)
      unfold try_decode_header at hd ⊢
      rw [if_neg (by simpa [HEADER_PREFIX_LEN] using h1)] at hd
      rw [if_neg (by simpa [HEADER_PREFIX_LEN] using h2)] at hd
      simp only [HEADER_PREFIX_LEN] at hd
      simp only [HEADER_PREFIX_LEN, List.length_append, g0, g1,
        g2 2 (by omega), g2 3 (by omega), g2 4 (by omega), g2 5 (by omega),
        g2 6 (by omega), g2 7 (by omega), g2 8 (by omega), g2 9 (by omega)]
      rw [if_neg (by omega), if_neg (by omega)]
      rw [hdrop, htake]
      exact hd


/-! ## Name sanitizer

Shallow embedding of `sanitize_file_name` from `src/lib.rs`. A path is
a list of characters with `/` as separator (Unix semantics of
`std::path::Path`). `Path::file_name` returns the last normalized
component when it is a normal component, and `None` for an empty path,
a root path, or a path whose last component is `..` or `.`;
`unwrap_or_else` then substitutes the fixed fallback name. -/

/-- Fallback name used when no usable path component exists. -/
def fallback_name : List Char := "received_file".toList

/-- Parent-directory path component. -/
def parent_component : List Char := ['.', '.']

/-- Current-directory path component. -/
def cur_component : List Char := ['.']

/-- Split a character list on `/` separators (keeping empty segments). -/
def split_path : List Char → List (List Char)
  | [] => [[]]
  | c :: rest =>
    match split_path rest with
    | [] => [[]]
    | s :: ss => if c = '/' then [] :: s :: ss else (c :: s) :: ss

/-- Keep the path segments that denote real components: `Path::components`
drops empty segments (repeated or trailing separators) and interior `.`
segments, so `Path::file_name` sees only the remaining ones. -/
def keep_component (seg : List Char) : Bool := decide (seg ≠ [] ∧ seg ≠ cur_component)

/-- Model of `sanitize_file_name` in `src/lib.rs`:
`Path::new(input).file_name()` yields the last kept component when it is
a normal one (`None` when there is none or when it is `..`), and the
fallback is substituted for `None`. -/
def sanitize_file_name (input : List Char) : List Char :=
  match ((split_path input).filter keep_component).getLast? with
  | some seg => if seg = parent_component then fallback_name else seg
  | none => fallback_name

/-! ## Receive state machine

Model of `handle_stream` / `receive_file` from `src/bin/server.rs`.
The transport is abstracted as the ordered list of chunks delivered
before a clean end-of-stream; each async `stream.receive()` returns the
next chunk (`Ok(Some(data))`) or, once the list is exhausted, the clean
end (`Ok(None)`). The destination file is the list of bytes written. -/

/-- Outcome reported when the body phase finishes: the success log line,
or the integrity warning naming the expected and actual byte counts. -/
inductive SessionReport where
  | success : SessionReport
  | integrityWarning (expected actual : Nat) : SessionReport
deriving DecidableEq, Repr

/-- State of one transfer session after the stream ends: decoded header,
bytes held by the destination file, the `written` counter, and the
final report. -/
structure SessionResult where
  header : FileHeader
  fileBytes : List Nat
  written : Nat
  report : SessionReport
deriving DecidableEq, Repr

/-- Result of handling one stream: either the protocol violation path
("connection closed before header received", no session, no file), or a
completed session. -/
inductive HandleResult where
  | protocolViolation : HandleResult
  | done (r : SessionResult) : HandleResult
deriving DecidableEq, Repr

/-- Header phase of `handle_stream`: append each delivered chunk to the
buffer and probe `try_decode_header`; on success return the header, the
consumed count, the buffer contents at that moment and the undelivered
chunks. Returns `none` when the chunk list is exhausted first, i.e. the
transport reported clean end-of-data while still awaiting the header. -/
def find_header : List Nat → List (List Nat) → Option (FileHeader × Nat × List Nat × List (List Nat))
  | _, [] => none
  | buffer, c :: cs =>
    match try_decode_header (buffer ++ c) with
    | some (h, used) => some (h, used, buffer ++ c, cs)
    | none => find_header (buffer ++ c) cs

/-- Body phase (`receive_file`): write the buffered bytes beyond
`consumed` as the first body chunk, then every later chunk verbatim,
adding each chunk's length to `written`; finally compare `written`
against the declared size. The destination file retains exactly the
bytes written in either outcome. -/
def receive_file (header : FileHeader) (buffer : List Nat) (consumed : Nat)
    (chunks : List (List Nat)) : SessionResult :=
  let first : List Nat := if buffer.length > consumed then buffer.drop consumed else []
  let fileBytes := first ++ chunks.flatten
  let written := chunks.foldl (fun w c => w + c.length) first.length
  { header := header, fileBytes := fileBytes, written := written,
    report := if written = header.file_size then SessionReport.success
      else SessionReport.integrityWarning header.file_size written }

/-- Whole-stream model of `handle_stream`: accumulate chunks until a
header decodes, then run the body phase on the remaining chunks; if the
chunk list ends first, report the protocol violation — `receive_file`
is never reached, so no destination file is created. -/
def handle_stream (chunks : List (List Nat)) : HandleResult :=
  match find_header [] chunks with
  | none => HandleResult.protocolViolation
  | some (h, used, buffer, rest) => HandleResult.done (receive_file h buffer used rest)

/-- The running `written` counter equals the length of the bytes written. -/
theorem foldl_length_eq (chunks : List (List Nat)) :
    ∀ n : Nat, chunks.foldl (fun w c => w + c.length) n = n + chunks.flatten.length := by
  induction chunks with
  | nil => intro n; simp
  | cons c cs ih =>
    intro n
    simp only [List.foldl_cons, List.flatten_cons, List.length_append, ih]
    omega

/-- The header phase finds the header as soon as the accumulated buffer
covers the encoded header, regardless of chunk boundaries. -/
theorem find_header_complete (enc body : List Nat) (h : FileHeader)
    (hdec : ∀ extra, try_decode_header (enc ++ extra) = some (h, enc.length))
    (hpre : ∀ k, k < enc.length → try_decode_header (enc.take k) = none) :
    ∀ chunks buffer, buffer.length < enc.length →
    buffer ++ chunks.flatten = enc ++ body →
    ∃ bufK rest, find_header buffer chunks = some (h, enc.length, bufK, rest) ∧
      enc.length ≤ bufK.length ∧ bufK.drop enc.length ++ rest.flatten = body := by
  intro chunks
  induction chunks with
  | nil =>
    intro buffer hlt hjoin
    exfalso
    simp only [List.flatten_nil, List.append_nil] at hjoin
    have hl := congrArg List.length hjoin
    rw [List.length_append] at hl
    omega
  | cons c cs ih =>
    intro buffer hlt hjoin
    rw [List.flatten_cons, ← List.append_assoc] at hjoin
    by_cases hcase : (buffer ++ c).length < enc.length
    · have h1 : ((buffer ++ c) ++ cs.flatten).take (buffer ++ c).length = buffer ++ c :=
        List.take_left _ _
      rw [hjoin, List.take_append_of_le_length (by omega)] at h1
      have hnone : try_decode_header (buffer ++ c) = none := by
        rw [← h1]
        exact hpre _ hcase
      rw [find_header, hnone]
      exact ih (buffer ++ c) hcase hjoin
    · have h2 : ((buffer ++ c) ++ cs.flatten).take enc.length = (buffer ++ c).take enc.length :=
        List.take_append_of_le_length (by omega)
      rw [hjoin, List.take_left] at h2
      have hsplit : buffer ++ c = enc ++ (buffer ++ c).drop enc.length := by
        conv_lhs => rw [← List.take_append_drop enc.length (buffer ++ c)]
        rw [← h2]
      have hsome : try_decode_header (buffer ++ c) = some (h, enc.length) := by
        rw [hsplit]
        exact hdec _
      refine ⟨buffer ++ c, cs, ?_, by omega, ?_⟩
      · rw [find_header, hsome]
      · have h3 := congrArg (List.drop enc.length) hjoin
        rw [List.drop_append_of_le_length (by omega), List.drop_left] at h3
        exact h3


/-- Full run of the receive state machine on a well-formed transfer:
for any split of `encoded header ++ body` into chunks, the session
decodes the intended header, writes exactly the body bytes, counts
them, and reports by comparing the count with the declared size. -/
theorem handle_stream_spec (name : List Nat) (size : Nat) (body : List Nat)
    (chunks : List (List Nat)) (hn : name.length ≤ 65535) (hs : size < 2 ^ 64)
    (hjoin : chunks.flatten = u16_le name.length ++ u64_le size ++ name ++ body) :
    handle_stream chunks = HandleResult.done
      { header := ⟨utf8_lossy name, size⟩, fileBytes := body, written := body.length,
        report := if body.length = size then SessionReport.success
          else SessionReport.integrityWarning size body.length } := by
  have hlen10 : (u16_le name.length ++ u64_le size ++ name).length = 10 + name.length :=
    encode_length name size
  have hdec : ∀ extra, try_decode_header ((u16_le name.length ++ u64_le size ++ name) ++ extra) =
      some (⟨utf8_lossy name, size⟩, (u16_le name.length ++ u64_le size ++ name).length) := by
    intro extra
    rw [hlen10]
    exact decode_encode_append name size extra hn hs
  have hpre : ∀ k, k < (u16_le name.length ++ u64_le size ++ name).length →
      try_decode_header ((u16_le name.length ++ u64_le size ++ name).take k) = none := by
    intro k hk
    rw [hlen10] at hk
    exact decode_prefix_none name size k hn hk
  obtain ⟨bufK, rest, hfind, hble, hbody⟩ :=
    find_header_complete (u16_le name.length ++ u64_le size ++ name) body
      ⟨utf8_lossy name, size⟩ hdec hpre chunks []
      (by rw [hlen10]; simp)
      (by simpa using hjoin)
  unfold handle_stream
  simp only [hfind]
  simp only [receive_file]
  have hfirst : (if bufK.length > (u16_le name.length ++ u64_le size ++ name).length then
      bufK.drop (u16_le name.length ++ u64_le size ++ name).length else []) =
      bufK.drop (u16_le name.length ++ u64_le size ++ name).length := by
    by_cases hgt : bufK.length > (u16_le name.length ++ u64_le size ++ name).length
    · rw [if_pos hgt]
    · rw [if_neg hgt]
      symm
      exact List.drop_eq_nil_of_le (by omega)
  rw [hfirst]
  have hwr : rest.foldl (fun w c => w + c.length)
      (bufK.drop (u16_le name.length ++ u64_le size ++ name).length).length = body.length := by
    rw [foldl_length_eq, ← List.length_append, hbody]
  rw [hbody, hwr]

/-- If no accumulated buffer prefix ever decodes, the header phase ends
with `none` once the transport reports end-of-data. -/
theorem find_header_none (chunks : List (List Nat)) :
    ∀ buffer, (∀ k, try_decode_header (buffer ++ (chunks.take k).flatten) = none) →
    find_header buffer chunks = none := by
  induction chunks with
  | nil => intro buffer _; rfl
  | cons c cs ih =>
    intro buffer hall
    have h1 : try_decode_header (buffer ++ c) = none := by
      have := hall 1
      simpa using this
    rw [find_header, h1]
    refine ih (buffer ++ c) ?_
    intro k
    have := hall (k + 1)
    simpa [List.append_assoc] using this


/-- Auxiliary: the element named by `getLast?` belongs to the list. -/
theorem mem_of_getLast?_eq {α : Type} {l : List α} {a : α} (h : l.getLast? = some a) : a ∈ l := by
  induction l with
  | nil => simp at h
  | cons x t ih =>
    cases t with
    | nil =>
      simp only [List.getLast?_singleton, Option.some.injEq] at h
      simp [h]
    | cons y u =>
      rw [List.getLast?_cons_cons] at h
      exact List.mem_cons_of_mem x (ih h)

/-- UTF-8 bytes of the example file name used in the spec's end-to-end test. -/
def report_name_bytes : List Nat := [114, 101, 112, 111, 114, 116, 46, 112, 100, 102]

/-- Encoded header for the name above with declared size 5, followed by
the body bytes 1..5. -/
def report_example : List Nat :=
  [10, 0, 5, 0, 0, 0, 0, 0, 0, 0] ++ report_name_bytes ++ [1, 2, 3, 4, 5]

/-- Same header (declared size 5) followed by only 3 body bytes. -/
def report_short_example : List Nat :=
  [10, 0, 5, 0, 0, 0, 0, 0, 0, 0] ++ report_name_bytes ++ [1, 2, 3]

/-! ## Claims -/

/-- C1: for every file name of at most 65535 bytes and every 64-bit
size, decoding the encoder's output succeeds with consumed count
`10 + len(name_bytes)`, the decoded size equals the input size, and the
decoded name bytes equal the input name whenever it is valid UTF-8
(in general they are its lossy decoding). -/
theorem claim_round_trip (name : List Nat) (size : Nat)
    (hn : name.length ≤ 65535) (hs : size < 2 ^ 64) :
    ∃ enc header, encode_header name size = Except.ok enc ∧
      try_decode_header enc = some (header, 10 + name.length) ∧
      header.file_size = size ∧ header.file_name = utf8_lossy name ∧
      (validUTF8 name = true → header.file_name = name) := by
  refine ⟨u16_le name.length ++ u64_le size ++ name, ⟨utf8_lossy name, size⟩,
    encode_ok name size hn, ?_, rfl, rfl, fun hv => utf8_lossy_of_valid name hv⟩
  have h := decode_encode_append name size [] hn hs
  simpa using h

/-- C1 witness at name `"a"` (bytes `[97]`), size 5. -/
theorem claim_round_trip_witness :
    ∃ enc header, encode_header [97] 5 = Except.ok enc ∧
      try_decode_header enc = some (header, 10 + [97].length) ∧
      header.file_size = 5 ∧ header.file_name = utf8_lossy [97] ∧
      (validUTF8 [97] = true → header.file_name = [97]) :=
  claim_round_trip [97] 5 (by decide) (by decide)

/-- C2: `try_decode_header` returns `none` exactly when the buffer holds
fewer than 10 bytes or fewer than `10 + name_len` bytes, `name_len`
being the little-endian u16 in the first two bytes (so the name byte
values themselves can never cause failure — they are decoded lossily);
consequently every strict prefix of a valid encoded header decodes to
`none`, and the full encoded header decodes with consumed count equal
to its length. -/
theorem claim_partial_buffer :
    (∀ buf : List Nat, try_decode_header buf = none ↔
      buf.length < 10 ∨ buf.length < 10 + (buf.getD 0 0 + 2 ^ 8 * buf.getD 1 0)) ∧
    (∀ name size enc, name.length ≤ 65535 → size < 2 ^ 64 →
      encode_header name size = Except.ok enc →
      (∀ k, k < enc.length → try_decode_header (enc.take k) = none) ∧
      ∃ header, try_decode_header enc = some (header, enc.length)) := by
  refine ⟨decode_none_characterization, ?_⟩
  intro name size enc hn hs he
  rw [encode_ok name size hn] at he
  have henc := Except.ok.inj he
  subst henc
  constructor
  · intro k hk
    rw [encode_length name size] at hk
    exact decode_prefix_none name size k hn hk
  · refine ⟨⟨utf8_lossy name, size⟩, ?_⟩
    rw [encode_length name size]
    have h := decode_encode_append name size [] hn hs
    simpa using h

/-- C2 witness: the encoded header for `[97]` with size 5, its prefixes
and its full decode. -/
theorem claim_partial_buffer_witness :
    (∀ k, k < ([1, 0, 5, 0, 0, 0, 0, 0, 0, 0, 97] : List Nat).length →
      try_decode_header (([1, 0, 5, 0, 0, 0, 0, 0, 0, 0, 97] : List Nat).take k) = none) ∧
    ∃ header, try_decode_header [1, 0, 5, 0, 0, 0, 0, 0, 0, 0, 97] =
      some (header, ([1, 0, 5, 0, 0, 0, 0, 0, 0, 0, 97] : List Nat).length) :=
  claim_partial_buffer.2 [97] 5 [1, 0, 5, 0, 0, 0, 0, 0, 0, 0, 97]
    (by decide) (by decide) (by rfl)


/-- C3: for every valid header-plus-body sequence and every split into
non-empty delivery chunks, the receive state machine writes exactly the
body bytes and ends with `written` equal to the body length,
independently of chunk boundaries; instantiated for the header
`("report.pdf", 5)` with body `[1,2,3,4,5]` this gives `written = 5`,
`file_size = 5` and no integrity mismatch. -/
theorem claim_chunk_reassembly :
    (∀ name size body enc chunks, name.length ≤ 65535 → size < 2 ^ 64 →
      encode_header name size = Except.ok enc →
      List.flatten chunks = enc ++ body →
      (∀ c ∈ chunks, c ≠ ([] : List Nat)) →
      handle_stream chunks = HandleResult.done
        { header := ⟨utf8_lossy name, size⟩, fileBytes := body, written := body.length,
          report := if body.length = size then SessionReport.success
            else SessionReport.integrityWarning size body.length }) ∧
    (∀ chunks : List (List Nat),
      List.flatten chunks = report_example →
      (∀ c ∈ chunks, c ≠ []) →
      ∃ r, handle_stream chunks = HandleResult.done r ∧ r.written = 5 ∧
        r.header.file_size = 5 ∧ r.fileBytes = [1, 2, 3, 4, 5] ∧
        r.report = SessionReport.success) := by
  constructor
  · intro name size body enc chunks hn hs he hj _
    rw [encode_ok name size hn] at he
    have henc := Except.ok.inj he
    subst henc
    exact handle_stream_spec name size body chunks hn hs
      (by simpa [List.append_assoc] using hj)
  · intro chunks hj _
    have hrw : report_example =
        u16_le report_name_bytes.length ++ u64_le 5 ++ report_name_bytes ++ [1, 2, 3, 4, 5] := by
      decide
    have h := handle_stream_spec report_name_bytes 5 [1, 2, 3, 4, 5] chunks
      (by decide) (by decide) (hj.trans hrw)
    exact ⟨_, h, by decide, by decide, by decide, by decide⟩

/-- C3 witness: the example delivered as a single chunk and byte-by-byte. -/
theorem claim_chunk_reassembly_witness :
    (∃ r, handle_stream [report_example] = HandleResult.done r ∧ r.written = 5 ∧
      r.header.file_size = 5 ∧ r.fileBytes = [1, 2, 3, 4, 5] ∧
      r.report = SessionReport.success) ∧
    (∃ r, handle_stream (report_example.map (fun b => [b])) = HandleResult.done r ∧
      r.written = 5 ∧ r.header.file_size = 5 ∧ r.fileBytes = [1, 2, 3, 4, 5] ∧
      r.report = SessionReport.success) :=
  ⟨claim_chunk_reassembly.2 [report_example] (by decide) (by decide),
   claim_chunk_reassembly.2 (report_example.map (fun b => [b])) (by decide) (by decide)⟩

/-- C4: when the body ends with a byte count different from the declared
size (in either direction), finalization reports an integrity warning
carrying the expected and actual counts, the session still completes
(`HandleResult.done`), and the destination file retains exactly the
bytes written; with declared size 5 and 3 delivered body bytes the
warning is `expected = 5, actual = 3` and the file holds the 3 bytes. -/
theorem claim_integrity_mismatch :
    (∀ name size body enc chunks, name.length ≤ 65535 → size < 2 ^ 64 →
      encode_header name size = Except.ok enc →
      List.flatten chunks = enc ++ body →
      body.length ≠ size →
      handle_stream chunks = HandleResult.done
        { header := ⟨utf8_lossy name, size⟩, fileBytes := body, written := body.length,
          report := SessionReport.integrityWarning size body.length }) ∧
    (∀ chunks : List (List Nat),
      List.flatten chunks = report_short_example →
      ∃ r, handle_stream chunks = HandleResult.done r ∧
        r.report = SessionReport.integrityWarning 5 3 ∧
        r.fileBytes = [1, 2, 3] ∧ r.written = 3) := by
  constructor
  · intro name size body enc chunks hn hs he hj hne
    rw [encode_ok name size hn] at he
    have henc := Except.ok.inj he
    subst henc
    have h := handle_stream_spec name size body chunks hn hs
      (by simpa [List.append_assoc] using hj)
    rw [h, if_neg hne]
  · intro chunks hj
    have hrw : report_short_example =
        u16_le report_name_bytes.length ++ u64_le 5 ++ report_name_bytes ++ [1, 2, 3] := by
      decide
    have h := handle_stream_spec report_name_bytes 5 [1, 2, 3] chunks
      (by decide) (by decide) (hj.trans hrw)
    exact ⟨_, h, by decide, by decide, by decide⟩

/-- C4 witness: the short transfer delivered as one chunk. -/
theorem claim_integrity_mismatch_witness :
    ∃ r, handle_stream [report_short_example] = HandleResult.done r ∧
      r.report = SessionReport.integrityWarning 5 3 ∧
      r.fileBytes = [1, 2, 3] ∧ r.written = 3 :=
  claim_integrity_mismatch.2 [report_short_example] (by decide)

/-- C5: when the transport signals clean end-of-data while the handler
is still awaiting the header (no accumulated buffer ever decodes), the
result is the protocol-violation report, distinct from every completed
session (`HandleResult.done`), so no Transfer Session is created and
`receive_file` — which creates the destination file — is never run; in
particular any delivery totalling fewer than 10 bytes ends this way,
e.g. the single 5-byte chunk `[0,0,0,0,0]`. -/
theorem claim_protocol_violation :
    (∀ chunks : List (List Nat),
      (∀ k, try_decode_header (List.flatten (chunks.take k)) = none) →
      handle_stream chunks = HandleResult.protocolViolation ∧
      ∀ r, handle_stream chunks ≠ HandleResult.done r) ∧
    (∀ chunks : List (List Nat), (List.flatten chunks).length < 10 →
      handle_stream chunks = HandleResult.protocolViolation) ∧
    handle_stream [[0, 0, 0, 0, 0]] = HandleResult.protocolViolation := by
  have core : ∀ chunks : List (List Nat),
      (∀ k, try_decode_header (List.flatten (chunks.take k)) = none) →
      handle_stream chunks = HandleResult.protocolViolation := by
    intro chunks hall
    unfold handle_stream
    rw [find_header_none chunks [] (by simpa using hall)]
  refine ⟨fun chunks hall => ⟨core chunks hall, ?_⟩, ?_, by decide⟩
  · intro r
    rw [core chunks hall]
    simp
  · intro chunks hlen
    refine core chunks ?_
    intro k
    rw [decode_none_characterization]
    left
    have hsplit : (chunks.take k ++ chunks.drop k).flatten = chunks.flatten := by
      rw [List.take_append_drop]
    rw [List.flatten_append] at hsplit
    have := congrArg List.length hsplit
    rw [List.length_append] at this
    omega

/-- C5 witness: five bytes split across two chunks, then end-of-stream. -/
theorem claim_protocol_violation_witness :
    handle_stream [[0, 0], [0, 0, 0]] = HandleResult.protocolViolation ∧
    ∀ r, handle_stream [[0, 0], [0, 0, 0]] ≠ HandleResult.done r :=
  claim_protocol_violation.1 [[0, 0], [0, 0, 0]] (by
    intro k
    match k with
    | 0 => decide
    | 1 => decide
    | k + 2 =>
      simp only [List.take_succ_cons, List.take_nil]
      decide)


/-- C6: `encode_header` fails (with the name-too-long encoding error) if
and only if the UTF-8 byte length of the name exceeds 65535; for every
name of at most 65535 bytes and every size it returns `Ok`. -/
theorem claim_encode_error_iff (name : List Nat) (size : Nat) :
    ((∃ msg, encode_header name size = Except.error msg) ↔ 65535 < name.length) ∧
    ((∃ out, encode_header name size = Except.ok out) ↔ name.length ≤ 65535) := by
  unfold encode_header
  by_cases h : name.length > 65535
  · rw [if_pos h]
    constructor
    · exact ⟨fun _ => h, fun _ => ⟨name_too_long_msg, rfl⟩⟩
    · constructor
      · rintro ⟨out, hout⟩
        exact absurd hout (by simp)
      · intro hle
        omega
  · rw [if_neg h]
    constructor
    · constructor
      · rintro ⟨msg, hmsg⟩
        exact absurd hmsg (by simp)
      · intro hlt
        omega
    · exact ⟨fun _ => by omega, fun _ => ⟨_, rfl⟩⟩

/-- C7: for names of at most 65535 bytes the encoder's output has length
exactly `10 + len(name_bytes)` and is byte-exactly the name length as
little-endian u16, then the size as little-endian u64, then the name
bytes, in that order. -/
theorem claim_wire_layout (name : List Nat) (size : Nat) (hn : name.length ≤ 65535) :
    ∃ enc, encode_header name size = Except.ok enc ∧
      enc.length = 10 + name.length ∧
      enc.take 2 = [name.length % 2 ^ 8, name.length / 2 ^ 8 % 2 ^ 8] ∧
      (enc.drop 2).take 8 = [size % 2 ^ 8, size / 2 ^ 8 % 2 ^ 8, size / 2 ^ 16 % 2 ^ 8,
        size / 2 ^ 24 % 2 ^ 8, size / 2 ^ 32 % 2 ^ 8, size / 2 ^ 40 % 2 ^ 8,
        size / 2 ^ 48 % 2 ^ 8, size / 2 ^ 56 % 2 ^ 8] ∧
      enc.drop 10 = name := by
  refine ⟨u16_le name.length ++ u64_le size ++ name,
    encode_ok name size hn, encode_length name size, ?_, ?_, ?_⟩
  · simp [u16_le, u64_le, List.cons_append, List.nil_append]
  · simp [u16_le, u64_le, List.cons_append, List.nil_append]
  · simp [u16_le, u64_le, List.cons_append, List.nil_append]

/-- C7 witness at name `[97]`, size 5. -/
theorem claim_wire_layout_witness :
    ∃ enc, encode_header [97] 5 = Except.ok enc ∧
      enc.length = 10 + [97].length ∧
      enc.take 2 = [[97].length % 2 ^ 8, [97].length / 2 ^ 8 % 2 ^ 8] ∧
      (enc.drop 2).take 8 = [5 % 2 ^ 8, 5 / 2 ^ 8 % 2 ^ 8, 5 / 2 ^ 16 % 2 ^ 8,
        5 / 2 ^ 24 % 2 ^ 8, 5 / 2 ^ 32 % 2 ^ 8, 5 / 2 ^ 40 % 2 ^ 8,
        5 / 2 ^ 48 % 2 ^ 8, 5 / 2 ^ 56 % 2 ^ 8] ∧
      enc.drop 10 = [97] :=
  claim_wire_layout [97] 5 (by decide)

/-- C8: the sanitizer is total and never yields an empty name, returns
the last kept path component whenever that component is not the parent
directory, and satisfies the four concrete cases from the spec. -/
theorem claim_sanitize :
    (∀ input : List Char, sanitize_file_name input ≠ []) ∧
    (∀ input seg, ((split_path input).filter keep_component).getLast? = some seg →
      seg ≠ parent_component → sanitize_file_name input = seg) ∧
    sanitize_file_name ("../../etc/passwd".toList) = "passwd".toList ∧
    sanitize_file_name ("a/b/c.txt".toList) = "c.txt".toList ∧
    sanitize_file_name ("".toList) = "received_file".toList ∧
    sanitize_file_name ("/".toList) = "received_file".toList := by
  refine ⟨?_, ?_, by decide, by decide, by decide, by decide⟩
  · intro input
    unfold sanitize_file_name
    rcases hl : ((split_path input).filter keep_component).getLast? with _ | seg
    · decide
    · have hm := mem_of_getLast?_eq hl
      have hk := List.of_mem_filter hm
      simp only [keep_component, decide_eq_true_eq] at hk
      show (if seg = parent_component then fallback_name else seg) ≠ []
      by_cases hp : seg = parent_component
      · rw [if_pos hp]
        decide
      · rw [if_neg hp]
        exact hk.1
  · intro input seg hl hne
    unfold sanitize_file_name
    rw [hl]
    show (if seg = parent_component then fallback_name else seg) = seg
    rw [if_neg hne]

/-- C8 witness: a path whose last kept component is a normal name. -/
theorem claim_sanitize_witness :
    sanitize_file_name ("a/b".toList) ≠ [] ∧
    sanitize_file_name ("a/b".toList) = "b".toList :=
  ⟨claim_sanitize.1 ("a/b".toList),
   claim_sanitize.2.1 ("a/b".toList) ("b".toList) (by decide) (by decide)⟩

/-- C9: a successful decode is stable under buffer growth — appending
any bytes leaves the decoded header and consumed count unchanged, so
the probe may be re-invoked as more bytes arrive. -/
theorem claim_decode_stable (buf extra : List Nat) (header : FileHeader) (consumed : Nat)
    (h : try_decode_header buf = some (header, consumed)) :
    try_decode_header (buf ++ extra) = some (header, consumed) :=
  decode_append_of_some buf extra header consumed h

/-- C9 witness: the header for `[97]` with size 5, grown by two bytes. -/
theorem claim_decode_stable_witness :
    try_decode_header ([1, 0, 5, 0, 0, 0, 0, 0, 0, 0, 97] ++ [1, 2]) =
      some (⟨[97], 5⟩, 11) :=
  claim_decode_stable [1, 0, 5, 0, 0, 0, 0, 0, 0, 0, 97] [1, 2] ⟨[97], 5⟩ 11 (by decide)

/-- C10: whenever the last kept path component is `..` the sanitizer
falls back to the fixed name — the fallback is taken in more cases than
the empty or separator-only inputs — and in fact no input can ever make
the sanitizer output the parent-directory name. -/
theorem claim_sanitize_parent :
    (∀ input, ((split_path input).filter keep_component).getLast? = some parent_component →
      sanitize_file_name input = "received_file".toList) ∧
    (∀ input, sanitize_file_name input ≠ parent_component) ∧
    sanitize_file_name ("..".toList) = "received_file".toList ∧
    sanitize_file_name ("a/..".toList) = "received_file".toList := by
  refine ⟨?_, ?_, by decide, by decide⟩
  · intro input hl
    unfold sanitize_file_name
    rw [hl]
    show (if parent_component = parent_component then fallback_name else parent_component) =
      "received_file".toList
    rw [if_pos rfl]
    decide
  · intro input
    unfold sanitize_file_name
    rcases hl : ((split_path input).filter keep_component).getLast? with _ | seg
    · decide
    · show (if seg = parent_component then fallback_name else seg) ≠ parent_component
      by_cases hp : seg = parent_component
      · rw [if_pos hp]
        decide
      · rw [if_neg hp]
        exact hp

/-- C10 witness: the input `".."` itself ends in a parent component. -/
theorem claim_sanitize_parent_witness :
    sanitize_file_name ("..".toList) = "received_file".toList :=
  claim_sanitize_parent.1 ("..".toList) (by decide)

end Quic3
